import Mathlib

/-!
Shallow embedding of the varintrs codec (src/lib.rs).

Machine integers are modelled as `Nat` (u64 and u8: values below
`2 ^ 64` resp. `256`) and `Int` (i64), with wrap-around written as
`% 2 ^ 64` where the Rust code relies on it.  A byte slice or byte
stream is a `List Nat` whose elements are below 256 (theorems carry
this as a hypothesis where it matters).  Bit masking a byte with
`0x7F` is `% 128`, setting the continuation bit `| 0x80` on a 7-bit
payload is `+ 128`, unsigned shifts are `<<<` / `/ 2 ^ s`, and the
arithmetic right shift of a signed value is division by a power of two
(`Int` division by a positive number is floor division).  Encoders
write bytes sequentially from index 0 of a caller buffer; they are
modelled as producing the list of written bytes, whose length is the
returned byte count.
-/

/-- MAX_VARINT_LEN64 from the source: the maximum length of a
varint-encoded 64-bit integer. -/
def MAX_VARINT_LEN64 : Nat := 10

/-- CONTINUATION_BIT from the source: `1 << 7`, the top bit of an
encoded byte. -/
def CONTINUATION_BIT : Nat := 128

/-- low_bits_of_byte from the source: `byte & !CONTINUATION_BIT`,
i.e. the low 7 bits of a byte value. -/
def low_bits_of_byte (b : Nat) : Nat := b % 128

/-- low_bits_of_u64 from the source: the low byte of `val` masked with
`!CONTINUATION_BIT`. -/
def low_bits_of_u64 (x : Nat) : Nat := low_bits_of_byte (x % 256)

/-- Interpretation of an `Int` as a u64 bit pattern (`x as u64`). -/
def toU64 (x : Int) : Nat := (x % 2 ^ 64).toNat

/-- Bitwise complement on u64 (`!ux` in Rust). -/
def u64not (n : Nat) : Nat := 2 ^ 64 - 1 - n

/-- Interpretation of a u64 bit pattern as an i64 (`as i64`). -/
def toI64 (n : Nat) : Int :=
  if n % 2 ^ 64 < 2 ^ 63 then ((n % 2 ^ 64 : Nat) : Int)
  else ((n % 2 ^ 64 : Nat) : Int) - 2 ^ 64

/-- Interpretation of a u8 bit pattern as an i8 (`as i8`). -/
def toI8 (n : Nat) : Int :=
  if n % 256 < 128 then ((n % 256 : Nat) : Int)
  else ((n % 256 : Nat) : Int) - 256

/-- put_vu64 from the source: while `x >= 0x80` emit
`x as u8 | 0x80` (the low 7 bits of the low byte with bit 7 set, i.e.
`x % 128 + 128`) and shift `x` right by 7; finally emit `x as u8`. -/
def put_vu64 (x : Nat) : List Nat :=
  if h : 128 ≤ x then (x % 128 + 128) :: put_vu64 (x / 128)
  else [x % 256]
termination_by x
decreasing_by omega

/-- put_vi64 from the source: zig-zag `ux = (x as u64) << 1`, with
`ux = !ux` for negative `x`, then delegate to put_vu64. -/
def put_vi64 (x : Int) : List Nat :=
  let ux := (toU64 x * 2) % 2 ^ 64
  put_vu64 (if x < 0 then u64not ux else ux)

/-- put_leb128_u64 from the source: while `x > 0`, emit
`low_bits_of_u64 x`, shift `x` right by 7, and set the continuation
bit on the emitted byte iff the shifted value is nonzero.  Note the
loop body does not run at all for `x = 0`. -/
def put_leb128_u64 (x : Nat) : List Nat :=
  if h : 0 < x then
    (if x / 128 ≠ 0 then low_bits_of_u64 x + CONTINUATION_BIT else low_bits_of_u64 x)
      :: put_leb128_u64 (x / 128)
  else []
termination_by x
decreasing_by omega

/-- put_leb128_i64 from the source: each round takes `byte = x as u8`,
arithmetic-shifts `x` right by 6 and is done iff the result is `0` or
`-1`; when done the continuation bit of `byte` is cleared
(`byte & !CONTINUATION_BIT = byte % 128`), otherwise `x` is shifted
right one more bit and the continuation bit is set
(`byte | CONTINUATION_BIT = byte % 128 + 128` since `byte < 256`). -/
def put_leb128_i64 (x : Int) : List Nat :=
  if h : x / 64 = 0 ∨ x / 64 = -1 then [(x % 256).toNat % 128]
  else ((x % 256).toNat % 128 + 128) :: put_leb128_i64 (x / 64 / 2)
termination_by x.natAbs
decreasing_by omega

/-- read_vu64 from the source, one step per byte pulled from the
stream: state is the accumulator `x`, the shift `s` and the byte count
`i`; the result is the decoded value, the signed byte count and the
unread remainder of the stream.  An exhausted stream yields `(0, 0)`;
reading an 11th byte, or a terminating 10th byte above 1, yields
`(0, -(i + 1))`. -/
def read_vu64_go : List Nat → Nat → Nat → Nat → Nat × Int × List Nat
  | [], _, _, _ => (0, 0, [])
  | b :: rest, x, s, i =>
    if i = MAX_VARINT_LEN64 then (0, -((i : Int) + 1), rest)
    else if b < 128 then
      if i = MAX_VARINT_LEN64 - 1 ∧ 1 < b then (0, -((i : Int) + 1), rest)
      else (x ||| ((b <<< s) % 2 ^ 64), (i : Int) + 1, rest)
    else read_vu64_go rest (x ||| ((low_bits_of_byte b <<< s) % 2 ^ 64)) (s + 7) (i + 1)

/-- read_vu64 from the source, started on a fresh stream. -/
def read_vu64 (l : List Nat) : Nat × Int × List Nat := read_vu64_go l 0 0 0

/-- vu64 from the source: read_vu64 over a cursor on the slice. -/
def vu64 (l : List Nat) : Nat × Int := ((read_vu64 l).1, (read_vu64 l).2.1)

/-- read_vi64 from the source: decode unsigned, then invert the
zig-zag map (`x = (ux >> 1) as i64`, complemented when `ux` is odd). -/
def read_vi64 (l : List Nat) : Int × Int × List Nat :=
  let r := read_vu64 l
  (if r.1 % 2 ≠ 0 then -(((r.1 / 2 : Nat) : Int) + 1) else ((r.1 / 2 : Nat) : Int),
    r.2.1, r.2.2)

/-- vi64 from the source: decode unsigned with vu64, then invert the
zig-zag map. -/
def vi64 (l : List Nat) : Int × Int :=
  let r := vu64 l
  (if r.1 % 2 ≠ 0 then -(((r.1 / 2 : Nat) : Int) + 1) else ((r.1 / 2 : Nat) : Int),
    r.2)

/-- Error type of the LEB128 stream decoders: the source maps both an
exhausted stream (the io error of read_u8/read_exact) and an invalid
encoding (the handcrafted Interrupted error) to io::Result errors. -/
inductive LebErr where
  | eof
  | invalid
deriving DecidableEq

/-- read_leb128_u64 from the source, the loop after the first byte:
accumulate `(byte & 0x7F) << shift` (u64 wrap-around), error out when
`shift >= 57` and `byte >> (64 - shift)` is nonzero, stop on a clear
continuation bit. -/
def read_leb128_u64_go : List Nat → Nat → Nat → Except LebErr (Nat × List Nat)
  | [], _, _ => .error .eof
  | b :: rest, result, shift =>
    let result := result ||| (((b % 128) <<< shift) % 2 ^ 64)
    if 57 ≤ shift ∧ b / 2 ^ (64 - shift) ≠ 0 then .error .invalid
    else if b < 128 then .ok (result, rest)
    else read_leb128_u64_go rest result (shift + 7)

/-- read_leb128_u64 from the source: a first byte without continuation
bit is returned directly, otherwise its low 7 bits seed the loop at
shift 7. -/
def read_leb128_u64 : List Nat → Except LebErr (Nat × List Nat)
  | [] => .error .eof
  | b :: rest =>
    if b < 128 then .ok (b, rest)
    else read_leb128_u64_go rest (b % 128) 7

/-- sign_and_unused_bit from read_leb128_i64:
`((byte << 1) as i8) >> (64 - shift)` — the byte is doubled in u8
(wrapping), reinterpreted signed and arithmetically shifted right. -/
def sign_and_unused_bit (b shift : Nat) : Int :=
  toI8 (b * 2 % 256) / (2 : Int) ^ (64 - shift)

/-- read_leb128_i64 from the source, one step per byte: the i64
accumulator is carried as its u64 bit pattern (the source only ors
nonnegative shifted payloads into it).  At `shift >= 57` a set
continuation bit or a sign_and_unused_bit other than 0 and -1 is an
error, otherwise the accumulator is returned as is; a terminating byte
below `shift 57` sign-extends by `<< ashift` then arithmetic
`>> ashift` with `ashift = 64 - (shift + 7)`. -/
def read_leb128_i64_go : List Nat → Nat → Nat → Except LebErr (Int × List Nat)
  | [], _, _ => .error .eof
  | b :: rest, result, shift =>
    let result := result ||| (((b % 128) <<< shift) % 2 ^ 64)
    if 57 ≤ shift then
      if 128 ≤ b ∨ (sign_and_unused_bit b shift ≠ 0 ∧ sign_and_unused_bit b shift ≠ -1)
      then .error .invalid
      else .ok (toI64 result, rest)
    else if b < 128 then
      .ok (toI64 ((result <<< (64 - (shift + 7))) % 2 ^ 64) / (2 : Int) ^ (64 - (shift + 7)),
        rest)
    else read_leb128_i64_go rest result (shift + 7)

/-- read_leb128_i64 from the source, started with accumulator 0 at
shift 0. -/
def read_leb128_i64 (l : List Nat) : Except LebErr (Int × List Nat) :=
  read_leb128_i64_go l 0 0

/-- Sequential indexed stores `buf[i] = b` into a fixed buffer, as the
encoders perform on the scratch array of the stream write adapters; an
out-of-bounds index is a Rust panic, modelled as `none`. -/
def writeSeq : List Nat → Nat → List Nat → Option (List Nat)
  | buf, _, [] => some buf
  | buf, i, b :: bs => if i < buf.length then writeSeq (buf.set i b) (i + 1) bs else none

/-- write_vu64 from WriteBytesVarExt: encode into a fresh
`[0u8; MAX_VARINT_LEN64]` scratch buffer and flush `buf[..i]` where
`i` is the count returned by the encoder; the result is the flushed
byte list together with the returned count. -/
def write_vu64 (x : Nat) : Option (List Nat × Nat) :=
  (writeSeq (List.replicate MAX_VARINT_LEN64 0) 0 (put_vu64 x)).map
    (fun w => (w.take (put_vu64 x).length, (put_vu64 x).length))

/-- write_vi64 from WriteBytesVarExt, as write_vu64 but for
put_vi64. -/
def write_vi64 (x : Int) : Option (List Nat × Nat) :=
  (writeSeq (List.replicate MAX_VARINT_LEN64 0) 0 (put_vi64 x)).map
    (fun w => (w.take (put_vi64 x).length, (put_vi64 x).length))

/-- write_leb128_u64 from WriteBytesVarExt, as write_vu64 but for
put_leb128_u64. -/
def write_leb128_u64 (x : Nat) : Option (List Nat × Nat) :=
  (writeSeq (List.replicate MAX_VARINT_LEN64 0) 0 (put_leb128_u64 x)).map
    (fun w => (w.take (put_leb128_u64 x).length, (put_leb128_u64 x).length))

/-- write_leb128_i64 from WriteBytesVarExt, as write_vu64 but for
put_leb128_i64. -/
def write_leb128_i64 (x : Int) : Option (List Nat × Nat) :=
  (writeSeq (List.replicate MAX_VARINT_LEN64 0) 0 (put_leb128_i64 x)).map
    (fun w => (w.take (put_leb128_i64 x).length, (put_leb128_i64 x).length))

/-- Canonical value of a LEB128 byte group list placed from `shift`
upwards: each byte contributes its low 7 bits at its shift position
(with the u64 wrap the accumulator applies). -/
def lebAccum : List Nat → Nat → Nat
  | [], _ => 0
  | b :: rest, shift => ((b % 128) <<< shift) % 2 ^ 64 + lebAccum rest (shift + 7)

/-- Sign extension of the low `m` bits of a u64 pattern `v`, as i64:
shift left by `64 - m`, then arithmetic shift right by `64 - m`. -/
def sext64 (v m : Nat) : Int :=
  toI64 ((v <<< (64 - m)) % 2 ^ 64) / (2 : Int) ^ (64 - m)

/-- Termination state of put_leb128_i64 at group `j` of input `x`: the
value remaining after the group's 7 payload bits is 0 and the group's
top payload bit (bit 6) is 0, or the remaining value is -1 and the top
payload bit is 1. -/
def lebDoneAt (x : Int) (j : Nat) : Prop :=
  (x / 128 ^ j / 128 = 0 ∧ x / 128 ^ j % 128 / 64 = 0) ∨
  (x / 128 ^ j / 128 = -1 ∧ x / 128 ^ j % 128 / 64 = 1)

instance (x : Int) (j : Nat) : Decidable (lebDoneAt x j) := by
  unfold lebDoneAt; infer_instance

/-- All bytes up to position `k` of a stream have the continuation bit
set. -/
def contB (l : List Nat) (k : Nat) : Prop := ∀ j, j < k → 128 ≤ l.getD j 0

instance (l : List Nat) (k : Nat) : Decidable (contB l k) := by
  unfold contB; infer_instance

theorem lor_mul_pow_eq_add {a : Nat} (b : Nat) {s : Nat} (h : a < 2 ^ s) :
    a ||| b * 2 ^ s = a + b * 2 ^ s := by
  rw [Nat.or_comm, mul_comm b (2 ^ s), ← Nat.mul_add_lt_is_or h b]
  omega

theorem lor_shiftLeft_eq_add {a : Nat} (b : Nat) {s : Nat} (h : a < 2 ^ s) :
    a ||| b <<< s = a + b * 2 ^ s := by
  rw [Nat.shiftLeft_eq, lor_mul_pow_eq_add b h]

theorem acc_lt_helper {acc b p : Nat} (ha : acc < p) (hb : b ≤ 127) :
    acc + b * p < 128 * p := by
  have hmul : b * p ≤ 127 * p := Nat.mul_le_mul_right p hb
  omega

theorem int_ediv_ediv (x : Int) {a b : Int} (ha : 0 < a) (hb : 0 < b) :
    x / a / b = x / (a * b) := by
  have hab : (0 : Int) < a * b := mul_pos ha hb
  have hx : x = a * b * (x / (a * b)) + x % (a * b) := by
    rw [Int.ediv_add_emod]
  have hr0 : 0 ≤ x % (a * b) := Int.emod_nonneg x (ne_of_gt hab)
  have hr1 : x % (a * b) < a * b := Int.emod_lt_of_pos x hab
  set q := x / (a * b) with hq
  set r := x % (a * b) with hr
  have h1 : x / a = r / a + b * q := by
    rw [hx]
    have : a * b * q + r = r + a * (b * q) := by ring
    rw [this, Int.add_mul_ediv_left r (b * q) (ne_of_gt ha)]
  have h2 : r / a < b := by
    rw [Int.ediv_lt_iff_lt_mul ha]
    calc r < a * b := hr1
    _ = b * a := by ring
  have h3 : 0 ≤ r / a := Int.ediv_nonneg hr0 (le_of_lt ha)
  rw [h1]
  have : r / a + b * q = r / a + q * b := by ring
  rw [this, Int.add_mul_ediv_right _ _ (ne_of_gt hb),
    Int.ediv_eq_zero_of_lt h3 h2]
  omega

theorem resid_succ (x : Int) (j : Nat) :
    x / 128 / (128 : Int) ^ j = x / 128 ^ (j + 1) := by
  rw [int_ediv_ediv x (by norm_num) (by positivity), pow_succ]
  ring_nf

theorem contB_zero (l : List Nat) : contB l 0 := by
  intro j hj; omega

theorem contB_cons {b : Nat} {rest : List Nat} {k : Nat} (hk : 0 < k) :
    contB (b :: rest) k ↔ 128 ≤ b ∧ contB rest (k - 1) := by
  constructor
  · intro h
    refine ⟨h 0 hk, fun j hj => ?_⟩
    have := h (j + 1) (by omega)
    simpa using this
  · rintro ⟨hb, h⟩ j hj
    cases j with
    | zero => simpa using hb
    | succ j => simpa using h j (by omega)

theorem set_append_length (pre : List Nat) (c : Nat) (rest : List Nat) (b : Nat) :
    (pre ++ c :: rest).set pre.length b = pre ++ b :: rest := by
  induction pre with
  | nil => rfl
  | cons h t ih => simp [List.set, ih]

theorem writeSeq_eq (bs : List Nat) : ∀ (pre buf : List Nat), bs.length ≤ buf.length →
    writeSeq (pre ++ buf) pre.length bs = some (pre ++ bs ++ buf.drop bs.length) := by
  induction bs with
  | nil => intro pre buf _; simp [writeSeq]
  | cons b bs ih =>
    intro pre buf h
    cases buf with
    | nil => simp at h
    | cons c rest =>
      rw [writeSeq]
      have hlt : pre.length < (pre ++ c :: rest).length := by simp
      rw [if_pos hlt, set_append_length]
      have h1 : pre ++ b :: rest = (pre ++ [b]) ++ rest := by simp
      have h2 : pre.length + 1 = (pre ++ [b]).length := by simp
      rw [h1, h2, ih (pre ++ [b]) rest (by simpa using h)]
      simp

theorem put_vu64_length_le : ∀ (k x : Nat), x < 2 ^ (7 * k + 7) →
    (put_vu64 x).length ≤ k + 1 := by
  intro k
  induction k with
  | zero =>
    intro x hx
    rw [put_vu64]
    rw [dif_neg (by omega)]
    simp
  | succ k ih =>
    intro x hx
    rw [put_vu64]
    by_cases h : 128 ≤ x
    · rw [dif_pos h]
      simp only [List.length_cons]
      have hd : x / 128 < 2 ^ (7 * k + 7) := by
        rw [Nat.div_lt_iff_lt_mul (by norm_num)]
        have he : 7 * (k + 1) + 7 = (7 * k + 7) + 7 := by ring
        rw [he, pow_add] at hx
        norm_num at hx
        exact hx
      have := ih (x / 128) hd
      omega
    · rw [dif_neg h]
      simp

theorem put_leb128_u64_length_le : ∀ (k x : Nat), x < 2 ^ (7 * k + 7) →
    (put_leb128_u64 x).length ≤ k + 1 := by
  intro k
  induction k with
  | zero =>
    intro x hx
    rw [put_leb128_u64]
    by_cases h : 0 < x
    · rw [dif_pos h]
      have hz : x / 128 = 0 := by omega
      rw [hz, put_leb128_u64]
      simp
    · rw [dif_neg h]
      simp
  | succ k ih =>
    intro x hx
    rw [put_leb128_u64]
    by_cases h : 0 < x
    · rw [dif_pos h]
      simp only [List.length_cons]
      have hd : x / 128 < 2 ^ (7 * k + 7) := by
        rw [Nat.div_lt_iff_lt_mul (by norm_num)]
        have he : 7 * (k + 1) + 7 = (7 * k + 7) + 7 := by ring
        rw [he, pow_add] at hx
        norm_num at hx
        exact hx
      have := ih (x / 128) hd
      omega
    · rw [dif_neg h]
      simp

theorem put_leb128_i64_length_le : ∀ (k : Nat) (x : Int),
    -(64 * 128 ^ k) ≤ x → x < 64 * 128 ^ k →
    (put_leb128_i64 x).length ≤ k + 1 := by
  intro k
  induction k with
  | zero =>
    intro x h1 h2
    norm_num at h1 h2
    rw [put_leb128_i64, dif_pos (by omega)]
    simp
  | succ k ih =>
    intro x h1 h2
    rw [put_leb128_i64]
    by_cases h : x / 64 = 0 ∨ x / 64 = -1
    · rw [dif_pos h]
      simp
    · rw [dif_neg h]
      simp only [List.length_cons]
      have hstep : x / 64 / 2 = x / 128 := by omega
      have hp : (0 : Int) < 128 ^ k := by positivity
      have hlo : -(64 * 128 ^ k) ≤ x / 128 := by
        have hdd : (-(64 * 128 ^ (k + 1)) : Int) / 128 ≤ x / 128 :=
          Int.ediv_le_ediv (by norm_num) h1
        have he : (-(64 * 128 ^ (k + 1)) : Int) = -(64 * 128 ^ k) * 128 := by
          rw [pow_succ]; ring
        rw [he, Int.mul_ediv_cancel _ (by norm_num)] at hdd
        exact hdd
      have hhi : x / 128 < 64 * 128 ^ k := by
        rw [Int.ediv_lt_iff_lt_mul (by norm_num)]
        calc x < 64 * 128 ^ (k + 1) := h2
        _ = 64 * 128 ^ k * 128 := by rw [pow_succ]; ring
      have := ih (x / 128) hlo hhi
      rw [hstep]
      omega

theorem write_adapter_eq (e : List Nat) (h : e.length ≤ MAX_VARINT_LEN64) :
    (writeSeq (List.replicate MAX_VARINT_LEN64 0) 0 e).map
      (fun w => (w.take e.length, e.length)) = some (e, e.length) := by
  have h0 : writeSeq (([] : List Nat) ++ List.replicate MAX_VARINT_LEN64 0)
      (List.length ([] : List Nat)) e =
      some (([] : List Nat) ++ e ++ (List.replicate MAX_VARINT_LEN64 0).drop e.length) :=
    writeSeq_eq e [] (List.replicate MAX_VARINT_LEN64 0) (by simpa using h)
  simp only [List.nil_append, List.length_nil] at h0
  rw [h0]
  simp [List.take_left]

theorem zigzag_inv (y : Int) (u : Nat) (h1 : -(2 ^ 63) ≤ y) (h2 : y < 2 ^ 63)
    (hu : u = if y < 0 then u64not ((toU64 y * 2) % 2 ^ 64) else (toU64 y * 2) % 2 ^ 64) :
    u < 2 ^ 64 ∧
    (if u % 2 ≠ 0 then -(((u / 2 : Nat) : Int) + 1) else ((u / 2 : Nat) : Int)) = y := by
  subst hu
  simp only [toU64, u64not]
  split_ifs <;> constructor <;> omega

theorem put_vu64_length_pos (x : Nat) : 0 < (put_vu64 x).length := by
  rw [put_vu64]
  by_cases h : 128 ≤ x
  · rw [dif_pos h]; simp
  · rw [dif_neg h]; simp

theorem read_vu64_go_put : ∀ (x : Nat) (rest : List Nat) (acc i : Nat),
    i + (put_vu64 x).length ≤ 10 → acc < 2 ^ (7 * i) → x < 2 ^ (64 - 7 * i) →
    read_vu64_go (put_vu64 x ++ rest) acc (7 * i) i =
      (acc + x * 2 ^ (7 * i), (i : Int) + ((put_vu64 x).length : Nat), rest) := by
  intro x
  induction x using Nat.strong_induction_on with
  | _ x ih =>
    intro rest acc i hlen hacc hx
    by_cases h : 128 ≤ x
    · have hput : put_vu64 x = (x % 128 + 128) :: put_vu64 (x / 128) := by
        rw [put_vu64]; rw [dif_pos h]
      rw [hput] at hlen ⊢
      have hl2 := put_vu64_length_pos (x / 128)
      simp only [List.length_cons] at hlen
      have hi8 : i ≤ 8 := by omega
      simp only [List.cons_append, read_vu64_go]
      rw [if_neg (show ¬(i = MAX_VARINT_LEN64) by simp only [MAX_VARINT_LEN64]; omega)]
      rw [if_neg (show ¬(x % 128 + 128 < 128) by omega)]
      have hlow : low_bits_of_byte (x % 128 + 128) = x % 128 := by
        simp [low_bits_of_byte]
      rw [hlow]
      have hp56 : (2 : Nat) ^ (7 * i) ≤ 2 ^ 56 := Nat.pow_le_pow_right (by norm_num) (by omega)
      have hsm : x % 128 * 2 ^ (7 * i) < 2 ^ 64 := by
        have h1 : x % 128 * 2 ^ (7 * i) ≤ 127 * 2 ^ 56 := Nat.mul_le_mul (by omega) hp56
        have h2 : (127 : Nat) * 2 ^ 56 < 2 ^ 64 := by norm_num
        omega
      have hmod : ((x % 128) <<< (7 * i)) % 2 ^ 64 = x % 128 * 2 ^ (7 * i) := by
        rw [Nat.shiftLeft_eq]; exact Nat.mod_eq_of_lt hsm
      rw [hmod, lor_mul_pow_eq_add _ hacc]
      have hpow : (2 : Nat) ^ (7 * (i + 1)) = 2 ^ (7 * i) * 128 := by
        rw [show 7 * (i + 1) = 7 * i + 7 by ring, pow_add]; norm_num
      have hacc2 : acc + x % 128 * 2 ^ (7 * i) < 2 ^ (7 * (i + 1)) := by
        have := acc_lt_helper hacc (show x % 128 ≤ 127 by omega)
        omega
      have hx2 : x / 128 < 2 ^ (64 - 7 * (i + 1)) := by
        rw [Nat.div_lt_iff_lt_mul (by norm_num)]
        have he : (64 - 7 * (i + 1)) + 7 = 64 - 7 * i := by omega
        have hpw : (2 : Nat) ^ (64 - 7 * (i + 1)) * 128 = 2 ^ (64 - 7 * i) := by
          rw [← he, pow_add]; norm_num
        omega
      rw [show 7 * i + 7 = 7 * (i + 1) by ring]
      simp only [List.append_eq]
      rw [ih (x / 128) (Nat.div_lt_self (by omega) (by norm_num)) rest _ (i + 1)
        (by omega) hacc2 hx2]
      simp only [Prod.mk.injEq]
      refine ⟨?_, ?_, by simp⟩
      · have hsplit : x = 128 * (x / 128) + x % 128 := by omega
        rw [hpow]
        conv_rhs => rw [hsplit]
        ring
      · simp only [List.length_cons]
        push_cast
        ring
    · have hxx : x % 256 = x := by omega
      have hput : put_vu64 x = [x] := by
        rw [put_vu64]; rw [dif_neg h, hxx]
      rw [hput] at hlen ⊢
      simp only [List.length_cons, List.length_nil] at hlen
      simp only [List.cons_append, List.nil_append, read_vu64_go]
      rw [if_neg (show ¬(i = MAX_VARINT_LEN64) by simp only [MAX_VARINT_LEN64]; omega)]
      rw [if_pos (show x < 128 by omega)]
      rw [if_neg (show ¬(i = MAX_VARINT_LEN64 - 1 ∧ 1 < x) by
        rintro ⟨hi9, hx1⟩
        simp only [MAX_VARINT_LEN64] at hi9
        subst hi9
        norm_num at hx
        omega)]
      have hsm : x * 2 ^ (7 * i) < 2 ^ 64 := by
        have hi9 : i ≤ 9 := by omega
        have he : (64 - 7 * i) + 7 * i = 64 := by omega
        have h1 : x * 2 ^ (7 * i) < 2 ^ (64 - 7 * i) * 2 ^ (7 * i) :=
          mul_lt_mul_of_pos_right hx (Nat.two_pow_pos _)
        rw [← pow_add, he] at h1
        exact h1
      have hmod : (x <<< (7 * i)) % 2 ^ 64 = x * 2 ^ (7 * i) := by
        rw [Nat.shiftLeft_eq]; exact Nat.mod_eq_of_lt hsm
      rw [hmod, lor_mul_pow_eq_add _ hacc]
      simp only [Prod.mk.injEq, List.length_cons, List.length_nil]
      norm_num

/-- C1: varint round-trip.  For every u64 value x, encoding with
put_vu64 (into a buffer with at least 10 bytes of capacity, modelled
by arbitrary trailing bytes after the written prefix) and decoding
with vu64 yields (x, n) with n the number of bytes written and
n ≤ 10; and for every i64 value y, put_vi64 followed by vi64 yields
(y, n) with n the encoded byte count. -/
theorem c1_varint_roundtrip (x : Nat) (y : Int) (rest rest2 : List Nat)
    (hx : x < 2 ^ 64) (hy1 : -(2 ^ 63) ≤ y) (hy2 : y < 2 ^ 63) :
    (vu64 (put_vu64 x ++ rest) = (x, ((put_vu64 x).length : Int)) ∧
      (put_vu64 x).length ≤ 10) ∧
    vi64 (put_vi64 y ++ rest2) = (y, ((put_vi64 y).length : Int)) := by
  have hlenx : (put_vu64 x).length ≤ 10 :=
    put_vu64_length_le 9 x (lt_of_lt_of_le hx (by norm_num))
  constructor
  · constructor
    · have h := read_vu64_go_put x rest 0 0 (by omega) (by norm_num) (by simpa using hx)
      norm_num at h
      simp only [vu64, read_vu64, h]
    · exact hlenx
  · simp only [put_vi64]
    set u := if y < 0 then u64not ((toU64 y * 2) % 2 ^ 64) else (toU64 y * 2) % 2 ^ 64
      with hu
    obtain ⟨hu64, hinv⟩ := zigzag_inv y u hy1 hy2 hu
    have hlenu : (put_vu64 u).length ≤ 10 :=
      put_vu64_length_le 9 u (lt_of_lt_of_le hu64 (by norm_num))
    have h := read_vu64_go_put u rest2 0 0 (by omega) (by norm_num) (by simpa using hu64)
    norm_num at h
    simp only [vi64, vu64, read_vu64, h]
    rw [Prod.mk.injEq]
    exact ⟨hinv, rfl⟩

/-- C1 witness at x = 300 and y = -129. -/
theorem c1_varint_roundtrip_witness :
    (vu64 (put_vu64 300 ++ []) = (300, ((put_vu64 300).length : Int)) ∧
      (put_vu64 300).length ≤ 10) ∧
    vi64 (put_vi64 (-129) ++ []) = (-129, ((put_vi64 (-129)).length : Int)) :=
  c1_varint_roundtrip 300 (-129) [] [] (by norm_num) (by norm_num) (by norm_num)

/-- C8: concrete vectors.  put_vu64 300 writes [0xAC, 0x02]; vu64 on
[0xE4, 0xD3, 0xF7, 0xA1, 0x16] returns (5976746468, 5);
put_leb128_i64 writes [0x7F] for -1, [0x3F] for 63 and [0xFF, 0x7E]
for -129. -/
theorem c8_concrete_vectors :
    put_vu64 300 = [0xAC, 0x02] ∧
    vu64 [0xE4, 0xD3, 0xF7, 0xA1, 0x16] = (5976746468, 5) ∧
    put_leb128_i64 (-1) = [0x7F] ∧
    put_leb128_i64 63 = [0x3F] ∧
    put_leb128_i64 (-129) = [0xFF, 0x7E] :=
  ⟨by simp [put_vu64], by decide, by simp [put_leb128_i64], by simp [put_leb128_i64],
    by simp [put_leb128_i64]⟩

/-- C3: encoding the value 0.  put_vu64 writes the single byte 0 and
returns 1 as the claim states, but put_leb128_u64 writes no byte at
all and returns 0, contradicting the claim (and the spec): its loop
`while x > 0` never runs for x = 0. -/
theorem c3_zero_encoding_eval :
    put_vu64 0 = [0] ∧ (put_vu64 0).length = 1 ∧
    put_leb128_u64 0 = [] ∧ (put_leb128_u64 0).length = 0 :=
  ⟨by simp [put_vu64], by simp [put_vu64], by simp [put_leb128_u64],
    by simp [put_leb128_u64]⟩

/-- C2: the LEB128 unsigned stream round-trip fails at x = 0: the
writer flushes no bytes, so the reader immediately hits the end of the
stream and reports an error instead of Ok(0). -/
theorem c2_leb128_roundtrip_fails_at_zero :
    put_leb128_u64 0 = [] ∧
    read_leb128_u64 (put_leb128_u64 0) = .error .eof := by
  constructor
  · simp [put_leb128_u64]
  · have h : put_leb128_u64 0 = [] := by simp [put_leb128_u64]
    rw [h]
    rfl

/-- C10: whenever unsigned varint decoding fails (value 0, count
n ≤ 0), the signed wrappers return exactly (0, n). -/
theorem c10_signed_error_propagation (l : List Nat)
    (h : (read_vu64 l).1 = 0 ∧ (read_vu64 l).2.1 ≤ 0) :
    vi64 l = (0, (read_vu64 l).2.1) ∧
    read_vi64 l = (0, (read_vu64 l).2.1, (read_vu64 l).2.2) := by
  obtain ⟨h0, _hn⟩ := h
  constructor
  · simp [vi64, vu64, h0]
  · simp [read_vi64, h0]

/-- C10 witness on the empty stream, where read_vu64 returns
(0, 0). -/
theorem c10_signed_error_propagation_witness :
    vi64 [] = (0, (read_vu64 []).2.1) ∧
    read_vi64 [] = (0, (read_vu64 []).2.1, (read_vu64 []).2.2) :=
  c10_signed_error_propagation [] (by decide)

/-- C9: encoded-length bound and scratch-buffer safety.  For 64-bit
inputs each encoder writes at most MAX_VARINT_LEN64 = 10 bytes, so the
10-byte scratch buffer of the stream write adapters is never indexed
out of bounds (the adapters return some, never the panic value none)
and each adapter flushes exactly the encoded prefix together with the
encoder's count. -/
theorem c9_scratch_buffer_safety (x : Nat) (y : Int) (z : Nat) (w : Int)
    (hx : x < 2 ^ 64) (hy1 : -(2 ^ 63) ≤ y) (hy2 : y < 2 ^ 63)
    (hz : z < 2 ^ 64) (hw1 : -(2 ^ 63) ≤ w) (hw2 : w < 2 ^ 63) :
    ((put_vu64 x).length ≤ MAX_VARINT_LEN64 ∧
      write_vu64 x = some (put_vu64 x, (put_vu64 x).length)) ∧
    ((put_vi64 y).length ≤ MAX_VARINT_LEN64 ∧
      write_vi64 y = some (put_vi64 y, (put_vi64 y).length)) ∧
    ((put_leb128_u64 z).length ≤ MAX_VARINT_LEN64 ∧
      write_leb128_u64 z = some (put_leb128_u64 z, (put_leb128_u64 z).length)) ∧
    ((put_leb128_i64 w).length ≤ MAX_VARINT_LEN64 ∧
      write_leb128_i64 w = some (put_leb128_i64 w, (put_leb128_i64 w).length)) := by
  have h1 : (put_vu64 x).length ≤ MAX_VARINT_LEN64 := by
    simp only [MAX_VARINT_LEN64]
    exact put_vu64_length_le 9 x (lt_of_lt_of_le hx (by norm_num))
  have h2 : (put_vi64 y).length ≤ MAX_VARINT_LEN64 := by
    simp only [MAX_VARINT_LEN64, put_vi64]
    set u := if y < 0 then u64not ((toU64 y * 2) % 2 ^ 64) else (toU64 y * 2) % 2 ^ 64
      with hu
    obtain ⟨hu64, _⟩ := zigzag_inv y u hy1 hy2 hu
    exact put_vu64_length_le 9 u (lt_of_lt_of_le hu64 (by norm_num))
  have h3 : (put_leb128_u64 z).length ≤ MAX_VARINT_LEN64 := by
    simp only [MAX_VARINT_LEN64]
    exact put_leb128_u64_length_le 9 z (lt_of_lt_of_le hz (by norm_num))
  have h4 : (put_leb128_i64 w).length ≤ MAX_VARINT_LEN64 := by
    simp only [MAX_VARINT_LEN64]
    refine put_leb128_i64_length_le 9 w ?_ ?_
    · have : -(64 * 128 ^ 9 : Int) ≤ -(2 ^ 63) := by norm_num
      omega
    · have : (2 ^ 63 : Int) ≤ 64 * 128 ^ 9 := by norm_num
      omega
  refine ⟨⟨h1, ?_⟩, ⟨h2, ?_⟩, ⟨h3, ?_⟩, ⟨h4, ?_⟩⟩
  · rw [write_vu64]; exact write_adapter_eq _ h1
  · rw [write_vi64]; exact write_adapter_eq _ h2
  · rw [write_leb128_u64]; exact write_adapter_eq _ h3
  · rw [write_leb128_i64]; exact write_adapter_eq _ h4

/-- C9 witness at x = 300, y = -129, z = 300, w = -129. -/
theorem c9_scratch_buffer_safety_witness :
    ((put_vu64 300).length ≤ MAX_VARINT_LEN64 ∧
      write_vu64 300 = some (put_vu64 300, (put_vu64 300).length)) ∧
    ((put_vi64 (-129)).length ≤ MAX_VARINT_LEN64 ∧
      write_vi64 (-129) = some (put_vi64 (-129), (put_vi64 (-129)).length)) ∧
    ((put_leb128_u64 300).length ≤ MAX_VARINT_LEN64 ∧
      write_leb128_u64 300 = some (put_leb128_u64 300, (put_leb128_u64 300).length)) ∧
    ((put_leb128_i64 (-129)).length ≤ MAX_VARINT_LEN64 ∧
      write_leb128_i64 (-129) = some (put_leb128_i64 (-129), (put_leb128_i64 (-129)).length)) :=
  c9_scratch_buffer_safety 300 (-129) 300 (-129) (by norm_num) (by norm_num)
    (by norm_num) (by norm_num) (by norm_num) (by norm_num)

theorem read_vu64_go_char : ∀ (l : List Nat) (x s i : Nat), i ≤ 10 →
    ((read_vu64_go l x s i).2.1 = 0 ↔ i + l.length ≤ 10 ∧ ∀ b ∈ l, 128 ≤ b) ∧
    (contB l (10 - i) ∧ 10 - i < l.length → (read_vu64_go l x s i).2.1 = -11) ∧
    (i ≤ 9 ∧ contB l (9 - i) ∧ 9 - i < l.length ∧ l.getD (9 - i) 0 < 128 ∧
        1 < l.getD (9 - i) 0 →
      (read_vu64_go l x s i).2.1 = -10) ∧
    ((read_vu64_go l x s i).2.1 < 0 ↔
      (contB l (10 - i) ∧ 10 - i < l.length) ∨
      (i ≤ 9 ∧ contB l (9 - i) ∧ 9 - i < l.length ∧ l.getD (9 - i) 0 < 128 ∧
        1 < l.getD (9 - i) 0)) ∧
    ((read_vu64_go l x s i).2.1 ≤ 0 → (read_vu64_go l x s i).1 = 0) := by
  intro l
  induction l with
  | nil =>
    intro x s i hi
    simp only [read_vu64_go]
    refine ⟨?_, ?_, ?_, ?_, ?_⟩
    · simpa using hi
    · rintro ⟨-, h⟩; simp at h
    · rintro ⟨-, -, h, -⟩; simp at h
    · constructor
      · intro h; norm_num at h
      · rintro (⟨-, h⟩ | ⟨-, -, h, -⟩) <;> simp at h
    · intro _; trivial
  | cons b rest ih =>
    intro x s i hi
    by_cases h10 : i = 10
    · subst h10
      rw [read_vu64_go, if_pos (show (10 : Nat) = MAX_VARINT_LEN64 from rfl)]
      refine ⟨?_, ?_, ?_, ?_, ?_⟩
      · constructor
        · intro h; norm_num at h
        · rintro ⟨hlen, -⟩; simp at hlen
      · intro _; norm_num
      · rintro ⟨h9, -⟩; omega
      · constructor
        · intro _
          left
          refine ⟨?_, by simp⟩
          simpa using contB_zero (b :: rest)
        · intro _; norm_num
      · intro _; rfl
    · have hi9 : i ≤ 9 := by omega
      by_cases hb : b < 128
      · by_cases hg : i = MAX_VARINT_LEN64 - 1 ∧ 1 < b
        · have hi9e : i = 9 := by
            have := hg.1; simp only [MAX_VARINT_LEN64] at this; omega
          rw [read_vu64_go,
            if_neg (show ¬(i = MAX_VARINT_LEN64) by simp only [MAX_VARINT_LEN64]; omega),
            if_pos hb, if_pos hg]
          subst hi9e
          refine ⟨?_, ?_, ?_, ?_, ?_⟩
          · constructor
            · intro h; norm_num at h
            · rintro ⟨-, hall⟩
              have := hall b (by simp)
              omega
          · rintro ⟨hc, -⟩
            have := hc 0 (by omega)
            simp at this
            omega
          · intro _; norm_num
          · constructor
            · intro _
              right
              refine ⟨by omega, ?_, by simp, by simpa using hb, by simpa using hg.2⟩
              simpa using contB_zero (b :: rest)
            · intro _; norm_num
          · intro _; rfl
        · rw [read_vu64_go,
            if_neg (show ¬(i = MAX_VARINT_LEN64) by simp only [MAX_VARINT_LEN64]; omega),
            if_pos hb, if_neg hg]
          simp only [MAX_VARINT_LEN64] at hg
          refine ⟨?_, ?_, ?_, ?_, ?_⟩
          · constructor
            · intro h; simp at h; omega
            · rintro ⟨-, hall⟩
              have := hall b (by simp)
              omega
          · rintro ⟨hc, -⟩
            have := hc 0 (by omega)
            simp at this
            omega
          · rintro ⟨-, hc, -, hd, he⟩
            by_cases h9 : i = 9
            · subst h9
              simp at hd he
              omega
            · have := hc 0 (by omega)
              simp at this
              omega
          · constructor
            · intro h; simp at h; omega
            · rintro (⟨hc, -⟩ | ⟨-, hc, -, hd, he⟩)
              · have := hc 0 (by omega)
                simp at this
                omega
              · by_cases h9 : i = 9
                · subst h9
                  simp at hd he
                  omega
                · have := hc 0 (by omega)
                  simp at this
                  omega
          · intro h
            exfalso
            simp at h
            omega
      · rw [read_vu64_go,
          if_neg (show ¬(i = MAX_VARINT_LEN64) by simp only [MAX_VARINT_LEN64]; omega),
          if_neg hb]
        obtain ⟨ih1, ih2, ih3, ih4, ih5⟩ :=
          ih (x ||| ((low_bits_of_byte b <<< s) % 2 ^ 64)) (s + 7) (i + 1) (by omega)
        refine ⟨?_, ?_, ?_, ?_, ih5⟩
        · rw [ih1]
          constructor
          · rintro ⟨ha, hf⟩
            refine ⟨by simp; omega, ?_⟩
            intro c hc
            rcases List.mem_cons.mp hc with hc | hc
            · subst hc; omega
            · exact hf c hc
          · rintro ⟨ha, hf⟩
            refine ⟨by simp at ha; omega, ?_⟩
            intro c hc
            exact hf c (List.mem_cons_of_mem b hc)
        · rintro ⟨hc, hl⟩
          have hsplit := (contB_cons (show 0 < 10 - i by omega)).mp hc
          have he : 10 - i - 1 = 10 - (i + 1) := by omega
          rw [he] at hsplit
          refine ih2 ⟨hsplit.2, ?_⟩
          simp at hl
          omega
        · rintro ⟨-, hc, hl, hd1, hd2⟩
          by_cases h9 : i = 9
          · subst h9
            simp at hd1
            omega
          · have hsplit := (contB_cons (show 0 < 9 - i by omega)).mp hc
            have he : 9 - i - 1 = 9 - (i + 1) := by omega
            rw [he] at hsplit
            have he2 : 9 - i = (9 - (i + 1)) + 1 := by omega
            rw [he2] at hd1 hd2 hl
            simp only [List.getD_cons_succ, List.length_cons] at hd1 hd2 hl
            refine ih3 ⟨by omega, hsplit.2, by omega, hd1, hd2⟩
        · rw [ih4]
          constructor
          · rintro (⟨hc, hl⟩ | ⟨hij, hc, hl, hd1, hd2⟩)
            · left
              have he : 10 - i = (10 - (i + 1)) + 1 := by omega
              rw [he]
              refine ⟨(contB_cons (by omega)).mpr ⟨by omega, by simpa using hc⟩, ?_⟩
              simp
              omega
            · right
              have he : 9 - i = (9 - (i + 1)) + 1 := by omega
              rw [he]
              refine ⟨by omega, (contB_cons (by omega)).mpr ⟨by omega, by simpa using hc⟩,
                by simp; omega, by simpa using hd1, by simpa using hd2⟩
          · rintro (⟨hc, hl⟩ | ⟨hij, hc, hl, hd1, hd2⟩)
            · left
              have hsplit := (contB_cons (show 0 < 10 - i by omega)).mp hc
              have he : 10 - i - 1 = 10 - (i + 1) := by omega
              rw [he] at hsplit
              refine ⟨hsplit.2, by simp at hl; omega⟩
            · by_cases h9 : i = 9
              · subst h9
                simp at hd1
                omega
              · right
                have hsplit := (contB_cons (show 0 < 9 - i by omega)).mp hc
                have he : 9 - i - 1 = 9 - (i + 1) := by omega
                rw [he] at hsplit
                have he2 : 9 - i = (9 - (i + 1)) + 1 := by omega
                rw [he2] at hd1 hd2 hl
                simp only [List.getD_cons_succ, List.length_cons] at hd1 hd2 hl
                exact ⟨by omega, hsplit.2, by omega, hd1, hd2⟩

/-- C4: varint decode error convention.  For every byte sequence, the
count is 0 (with value 0) iff the input runs out before a byte with a
clear continuation bit (at most 10 bytes, all with the bit set); it is
negative (with value 0) iff more than 10 groups are consumed (count
-11, 11 bytes read) or the 10th group terminates with payload above 1
(count -10, 10 bytes read). -/
theorem c4_varint_decode_errors (l : List Nat) (_hl : ∀ b ∈ l, b < 256) :
    ((vu64 l).2 = 0 ↔ l.length ≤ 10 ∧ ∀ b ∈ l, 128 ≤ b) ∧
    ((vu64 l).2 < 0 ↔
      (contB l 10 ∧ 10 < l.length) ∨
      (contB l 9 ∧ 9 < l.length ∧ l.getD 9 0 < 128 ∧ 1 < l.getD 9 0)) ∧
    (contB l 10 ∧ 10 < l.length → vu64 l = (0, -11)) ∧
    (contB l 9 ∧ 9 < l.length ∧ l.getD 9 0 < 128 ∧ 1 < l.getD 9 0 → vu64 l = (0, -10)) ∧
    ((vu64 l).2 ≤ 0 → (vu64 l).1 = 0) := by
  obtain ⟨h1, h2, h3, h4, h5⟩ := read_vu64_go_char l 0 0 0 (by omega)
  simp only [Nat.sub_zero, Nat.zero_add, Nat.zero_le, true_and] at h1 h2 h3 h4
  simp only [vu64, read_vu64]
  refine ⟨h1, h4, ?_, ?_, h5⟩
  · intro hc
    have hcount := h2 hc
    have hval := h5 (by omega)
    rw [Prod.mk.injEq]
    exact ⟨hval, hcount⟩
  · intro hc
    have hcount := h3 hc
    have hval := h5 (by omega)
    rw [Prod.mk.injEq]
    exact ⟨hval, hcount⟩

/-- C4 witness: eleven continuation bytes yield (0, -11). -/
theorem c4_varint_decode_errors_witness :
    vu64 (List.replicate 11 128) = (0, -11) :=
  (c4_varint_decode_errors (List.replicate 11 128) (by decide)).2.2.1
    ⟨by decide, by decide⟩

theorem shift_mod_small {b : Nat} (s : Nat) (hb : b ≤ 127) (hs : s ≤ 56) :
    (b <<< s) % 2 ^ 64 = b * 2 ^ s := by
  rw [Nat.shiftLeft_eq]
  apply Nat.mod_eq_of_lt
  have h1 : b * 2 ^ s ≤ 127 * 2 ^ 56 :=
    Nat.mul_le_mul hb (Nat.pow_le_pow_right (by norm_num) hs)
  have h2 : (127 : Nat) * 2 ^ 56 < 2 ^ 64 := by norm_num
  omega

theorem read_leb128_u64_go_ok : ∀ (bs : List Nat) (b : Nat) (rest : List Nat)
    (result m : Nat), 1 ≤ m → m + bs.length ≤ 9 → result < 2 ^ (7 * m) →
    (∀ c ∈ bs, 128 ≤ c) → b < 128 → (m + bs.length = 9 → b ≤ 1) →
    read_leb128_u64_go (bs ++ b :: rest) result (7 * m) =
      .ok (result + lebAccum (bs ++ [b]) (7 * m), rest) := by
  intro bs
  induction bs with
  | nil =>
    intro b rest result m hm1 hm9 hres hcont hb hlast
    simp only [List.nil_append, read_leb128_u64_go, lebAccum]
    have hbm : b % 128 = b := by omega
    rw [hbm]
    simp only [List.length_nil] at hm9 hlast
    have hmod : (b <<< (7 * m)) % 2 ^ 64 = b * 2 ^ (7 * m) := by
      by_cases h9 : m = 9
      · subst h9
        have hb1 : b ≤ 1 := hlast (by omega)
        rw [Nat.shiftLeft_eq]
        apply Nat.mod_eq_of_lt
        have : b * 2 ^ (7 * 9) ≤ 1 * 2 ^ 63 := Nat.mul_le_mul hb1 (by norm_num)
        omega
      · exact shift_mod_small _ (by omega) (by omega)
    rw [hmod]
    rw [if_neg (by
      rintro ⟨hs, hd⟩
      have h9 : m = 9 := by omega
      rw [h9] at hd
      have hb1 : b ≤ 1 := hlast (by omega)
      norm_num at hd
      omega)]
    rw [if_pos hb, lor_mul_pow_eq_add _ hres]
    norm_num
  | cons c bs2 ih =>
    intro b rest result m hm1 hm9 hres hcont hb hlast
    simp only [List.cons_append, read_leb128_u64_go, lebAccum]
    simp only [List.length_cons] at hm9 hlast
    have hm8 : m ≤ 8 := by omega
    have hc : 128 ≤ c := hcont c (by simp)
    rw [if_neg (by rintro ⟨hs, -⟩; omega)]
    rw [if_neg (by omega)]
    have hmod : ((c % 128) <<< (7 * m)) % 2 ^ 64 = c % 128 * 2 ^ (7 * m) :=
      shift_mod_small _ (by omega) (by omega)
    rw [hmod, lor_mul_pow_eq_add _ hres]
    have hpow : (2 : Nat) ^ (7 * (m + 1)) = 2 ^ (7 * m) * 128 := by
      rw [show 7 * (m + 1) = 7 * m + 7 by ring, pow_add]; norm_num
    have hres2 : result + c % 128 * 2 ^ (7 * m) < 2 ^ (7 * (m + 1)) := by
      have := acc_lt_helper hres (show c % 128 ≤ 127 by omega)
      omega
    rw [show 7 * m + 7 = 7 * (m + 1) by ring]
    simp only [List.append_eq]
    rw [ih b rest _ (m + 1) (by omega) (by omega) hres2
      (fun d hd => hcont d (by simp [hd])) hb (by intro h; exact hlast (by omega))]
    rw [Nat.add_assoc]

theorem read_leb128_u64_go_invalid : ∀ (bs : List Nat) (b : Nat) (rest : List Nat)
    (result m : Nat), 1 ≤ m → m + bs.length = 9 → (∀ c ∈ bs, 128 ≤ c) → 2 ≤ b →
    read_leb128_u64_go (bs ++ b :: rest) result (7 * m) = .error .invalid := by
  intro bs
  induction bs with
  | nil =>
    intro b rest result m hm1 hm9 hcont hb
    simp only [List.nil_append, read_leb128_u64_go]
    simp only [List.length_nil] at hm9
    have h9 : m = 9 := by omega
    subst h9
    rw [if_pos ⟨by norm_num, by norm_num; omega⟩]
  | cons c bs2 ih =>
    intro b rest result m hm1 hm9 hcont hb
    simp only [List.cons_append, read_leb128_u64_go]
    simp only [List.length_cons] at hm9
    have hm8 : m ≤ 8 := by omega
    have hc : 128 ≤ c := hcont c (by simp)
    rw [if_neg (by rintro ⟨hs, -⟩; omega)]
    rw [if_neg (by omega)]
    rw [show 7 * m + 7 = 7 * (m + 1) by ring]
    exact ih b rest _ (m + 1) (by omega) (by omega)
      (fun d hd => hcont d (by simp [hd])) hb

/-- C5: read_leb128_u64 validation.  If the first nine bytes all carry
the continuation bit and a 10th byte is read whose value has any bit
above bit 0 set (value at least 2, covering high payload bits and the
continuation flag), the decoder reports the invalid-encoding error;
every well-formed encoding — at most 10 bytes, all but the last with
the continuation bit, a 10th byte of at most 1 — is accepted and
decoded to its canonical value. -/
theorem c5_leb128_u64_validation :
    (∀ (bs : List Nat) (b : Nat) (rest : List Nat),
      bs.length = 9 → (∀ c ∈ bs, 128 ≤ c ∧ c < 256) → 2 ≤ b → b < 256 →
      read_leb128_u64 (bs ++ b :: rest) = .error .invalid) ∧
    (∀ (bs : List Nat) (b : Nat) (rest : List Nat),
      bs.length ≤ 9 → (∀ c ∈ bs, 128 ≤ c ∧ c < 256) → b < 128 →
      (bs.length = 9 → b ≤ 1) →
      read_leb128_u64 (bs ++ b :: rest) = .ok (lebAccum (bs ++ [b]) 0, rest)) := by
  constructor
  · intro bs b rest hlen hcont hb _hb2
    cases bs with
    | nil => simp at hlen
    | cons c bs2 =>
      simp only [List.cons_append, read_leb128_u64]
      have hc : 128 ≤ c := (hcont c (by simp)).1
      rw [if_neg (by omega)]
      have h := read_leb128_u64_go_invalid bs2 b rest (c % 128) 1 (by norm_num)
        (by simp at hlen ⊢; omega) (fun d hd => (hcont d (by simp [hd])).1) hb
      norm_num at h
      exact h
  · intro bs b rest hlen hcont hb hlast
    cases bs with
    | nil =>
      simp only [List.nil_append, read_leb128_u64, lebAccum]
      rw [if_pos hb]
      have h0 : ((b % 128) <<< 0) % 2 ^ 64 = b := by
        rw [Nat.shiftLeft_eq]
        norm_num
        omega
      rw [h0]
      norm_num
    | cons c bs2 =>
      simp only [List.cons_append, read_leb128_u64]
      have hc : 128 ≤ c := (hcont c (by simp)).1
      rw [if_neg (by omega)]
      have hres : c % 128 < 2 ^ (7 * 1) := by norm_num; omega
      have hgo := read_leb128_u64_go_ok bs2 b rest (c % 128) 1 (by norm_num)
        (by simp at hlen ⊢; omega) hres (fun d hd => (hcont d (by simp [hd])).1) hb
        (by intro h; exact hlast (by simp at h ⊢; omega))
      norm_num at hgo
      rw [hgo]
      simp only [List.cons_append, lebAccum]
      have h0 : ((c % 128) <<< 0) % 2 ^ 64 = c % 128 := by
        rw [Nat.shiftLeft_eq]
        norm_num
        omega
      rw [h0]

/-- C5 witness: nine continuation bytes followed by 2 are rejected;
the two-byte encoding 0xAC 0x02 of 300 is accepted. -/
theorem c5_leb128_u64_validation_witness :
    read_leb128_u64 (List.replicate 9 128 ++ 2 :: []) = .error .invalid ∧
    read_leb128_u64 ([172] ++ 2 :: []) = .ok (lebAccum ([172] ++ [2]) 0, []) :=
  ⟨c5_leb128_u64_validation.1 (List.replicate 9 128) 2 [] (by decide) (by decide)
      (by decide) (by decide),
    c5_leb128_u64_validation.2 [172] 2 [] (by decide) (by decide) (by decide)
      (by decide)⟩

theorem shift63_mod (b : Nat) : (b <<< 63) % 2 ^ 64 = b % 2 * 2 ^ 63 := by
  rw [Nat.shiftLeft_eq]
  omega

theorem sau_63_cases (b : Nat) (_hb : b < 256) :
    (sign_and_unused_bit b 63 = 0 ∨ sign_and_unused_bit b 63 = -1) ↔
      (b % 128 = 0 ∨ b % 128 = 127) := by
  simp only [sign_and_unused_bit, toI8]
  norm_num
  split_ifs <;> omega

theorem read_leb128_i64_go_ok : ∀ (bs : List Nat) (b : Nat) (rest : List Nat)
    (result m : Nat), m + bs.length ≤ 8 → result < 2 ^ (7 * m) →
    (∀ c ∈ bs, 128 ≤ c) → b < 128 →
    read_leb128_i64_go (bs ++ b :: rest) result (7 * m) =
      .ok (sext64 (result + lebAccum (bs ++ [b]) (7 * m)) (7 * (m + bs.length) + 7),
        rest) := by
  intro bs
  induction bs with
  | nil =>
    intro b rest result m hm8 hres hcont hb
    simp only [List.nil_append, read_leb128_i64_go, lebAccum, List.length_nil] at hm8 ⊢
    rw [if_neg (by omega)]
    rw [if_pos hb]
    have hbm : b % 128 = b := by omega
    rw [hbm]
    have hmod : (b <<< (7 * m)) % 2 ^ 64 = b * 2 ^ (7 * m) :=
      shift_mod_small _ (by omega) (by omega)
    rw [hmod, lor_mul_pow_eq_add _ hres]
    simp only [sext64, Nat.add_zero]
  | cons c bs2 ih =>
    intro b rest result m hm8 hres hcont hb
    simp only [List.cons_append, read_leb128_i64_go, lebAccum, List.length_cons]
      at hm8 ⊢
    have hc : 128 ≤ c := hcont c (by simp)
    rw [if_neg (by omega)]
    rw [if_neg (by omega)]
    have hmod : ((c % 128) <<< (7 * m)) % 2 ^ 64 = c % 128 * 2 ^ (7 * m) :=
      shift_mod_small _ (by omega) (by omega)
    rw [hmod, lor_mul_pow_eq_add _ hres]
    have hpow : (2 : Nat) ^ (7 * (m + 1)) = 2 ^ (7 * m) * 128 := by
      rw [show 7 * (m + 1) = 7 * m + 7 by ring, pow_add]; norm_num
    have hres2 : result + c % 128 * 2 ^ (7 * m) < 2 ^ (7 * (m + 1)) := by
      have := acc_lt_helper hres (show c % 128 ≤ 127 by omega)
      omega
    rw [show 7 * m + 7 = 7 * (m + 1) by ring]
    simp only [List.append_eq]
    rw [ih b rest _ (m + 1) (by omega) hres2
      (fun d hd => hcont d (by simp [hd])) hb]
    rw [Nat.add_assoc]
    rw [show m + 1 + bs2.length = m + (bs2.length + 1) by omega]

theorem read_leb128_i64_go_10th : ∀ (bs : List Nat) (b : Nat) (rest : List Nat)
    (result m : Nat), m + bs.length = 9 → result < 2 ^ (7 * m) →
    (∀ c ∈ bs, 128 ≤ c) → b < 256 →
    read_leb128_i64_go (bs ++ b :: rest) result (7 * m) =
      if 128 ≤ b ∨ (b % 128 ≠ 0 ∧ b % 128 ≠ 127) then .error .invalid
      else .ok (toI64 (result + lebAccum (bs ++ [b]) (7 * m)), rest) := by
  intro bs
  induction bs with
  | nil =>
    intro b rest result m hm9 hres hcont hb
    simp only [List.nil_append, read_leb128_i64_go, lebAccum, List.length_nil] at hm9 ⊢
    have h9 : m = 9 := by omega
    subst h9
    rw [if_pos (show (57 : Nat) ≤ 7 * 9 by norm_num)]
    have hcond_iff : (128 ≤ b ∨ (sign_and_unused_bit b (7 * 9) ≠ 0 ∧
        sign_and_unused_bit b (7 * 9) ≠ -1)) ↔
        (128 ≤ b ∨ (b % 128 ≠ 0 ∧ b % 128 ≠ 127)) := by
      have hiff := sau_63_cases b hb
      norm_num at hiff ⊢
      tauto
    have hx : ((b % 128) <<< (7 * 9)) % 2 ^ 64 = b % 128 % 2 * 2 ^ 63 := by
      have := shift63_mod (b % 128)
      norm_num at this ⊢
      exact this
    have hres63 : result < 2 ^ 63 := by
      have : (2 : Nat) ^ (7 * 9) = 2 ^ 63 := by norm_num
      omega
    by_cases hcond : 128 ≤ b ∨ (b % 128 ≠ 0 ∧ b % 128 ≠ 127)
    · rw [if_pos (hcond_iff.mpr hcond), if_pos hcond]
    · rw [if_neg (fun hc => hcond (hcond_iff.mp hc)), if_neg hcond]
      rw [hx]
      have hadd : result ||| b % 128 % 2 * 2 ^ 63 = result + b % 128 % 2 * 2 ^ 63 :=
        lor_mul_pow_eq_add _ hres63
      rw [hadd]
      norm_num
  | cons c bs2 ih =>
    intro b rest result m hm9 hres hcont hb
    simp only [List.cons_append, read_leb128_i64_go, lebAccum, List.length_cons]
      at hm9 ⊢
    have hm8 : m ≤ 8 := by omega
    have hc : 128 ≤ c := hcont c (by simp)
    rw [if_neg (by omega)]
    rw [if_neg (by omega)]
    have hmod : ((c % 128) <<< (7 * m)) % 2 ^ 64 = c % 128 * 2 ^ (7 * m) :=
      shift_mod_small _ (by omega) (by omega)
    rw [hmod, lor_mul_pow_eq_add _ hres]
    have hpow : (2 : Nat) ^ (7 * (m + 1)) = 2 ^ (7 * m) * 128 := by
      rw [show 7 * (m + 1) = 7 * m + 7 by ring, pow_add]; norm_num
    have hres2 : result + c % 128 * 2 ^ (7 * m) < 2 ^ (7 * (m + 1)) := by
      have := acc_lt_helper hres (show c % 128 ≤ 127 by omega)
      omega
    rw [show 7 * m + 7 = 7 * (m + 1) by ring]
    simp only [List.append_eq]
    rw [ih b rest _ (m + 1) (by omega) hres2
      (fun d hd => hcont d (by simp [hd])) hb]
    rw [Nat.add_assoc]

/-- C6: read_leb128_i64 sign extension and validation.  A terminating
byte at shift s = 7k < 57 yields the accumulated result sign-extended
by a left shift of 64 - s - 7 followed by an arithmetic right shift of
the same amount; a byte read at shift 63 >= 57 yields an error exactly
when its continuation bit is set or its sign-extended payload bits are
not uniformly 0 (payload 0x00) or uniformly 1 (payload 0x7F), and
otherwise the accumulated value is returned as is. -/
theorem c6_leb128_i64_sign_extension :
    (∀ (bs : List Nat) (b : Nat) (rest : List Nat),
      bs.length ≤ 8 → (∀ c ∈ bs, 128 ≤ c ∧ c < 256) → b < 128 →
      read_leb128_i64 (bs ++ b :: rest) =
        .ok (sext64 (lebAccum (bs ++ [b]) 0) (7 * bs.length + 7), rest)) ∧
    (∀ (bs : List Nat) (b : Nat) (rest : List Nat),
      bs.length = 9 → (∀ c ∈ bs, 128 ≤ c ∧ c < 256) → b < 256 →
      read_leb128_i64 (bs ++ b :: rest) =
        if 128 ≤ b ∨ (b % 128 ≠ 0 ∧ b % 128 ≠ 127) then .error .invalid
        else .ok (toI64 (lebAccum (bs ++ [b]) 0), rest)) := by
  constructor
  · intro bs b rest hlen hcont hb
    have h := read_leb128_i64_go_ok bs b rest 0 0 (by omega) (by norm_num)
      (fun c hc => (hcont c hc).1) hb
    norm_num at h
    simpa [read_leb128_i64] using h
  · intro bs b rest hlen hcont hb
    have h := read_leb128_i64_go_10th bs b rest 0 0 (by omega) (by norm_num)
      (fun c hc => (hcont c hc).1) hb
    norm_num at h
    simpa [read_leb128_i64] using h

/-- C6 witness: the two-byte encoding 0xFF 0x7E decodes with sign
extension at shift 7; a 10th byte of 1 (payload neither 0x00 nor 0x7F)
is rejected. -/
theorem c6_leb128_i64_sign_extension_witness :
    read_leb128_i64 ([255] ++ 126 :: []) =
      .ok (sext64 (lebAccum ([255] ++ [126]) 0) (7 * [(255 : Nat)].length + 7), []) ∧
    read_leb128_i64 (List.replicate 9 128 ++ 1 :: []) =
      (if (128 : Nat) ≤ 1 ∨ ((1 : Nat) % 128 ≠ 0 ∧ (1 : Nat) % 128 ≠ 127)
       then .error .invalid
       else .ok (toI64 (lebAccum (List.replicate 9 128 ++ [1]) 0), [])) :=
  ⟨c6_leb128_i64_sign_extension.1 [255] 126 [] (by decide) (by decide) (by decide),
    c6_leb128_i64_sign_extension.2 (List.replicate 9 128) 1 [] (by decide) (by decide)
      (by decide)⟩

theorem int_div64_div2 (x : Int) : x / 64 / 2 = x / 128 := by omega

theorem put_leb128_i64_length_pos (x : Int) : 0 < (put_leb128_i64 x).length := by
  rw [put_leb128_i64]
  by_cases h : x / 64 = 0 ∨ x / 64 = -1
  · rw [dif_pos h]; simp
  · rw [dif_neg h]; simp

theorem done_iff_lebDoneAt (x : Int) :
    (x / 64 = 0 ∨ x / 64 = -1) ↔ lebDoneAt x 0 := by
  simp only [lebDoneAt, pow_zero, Int.ediv_one]
  omega

theorem lebDoneAt_succ (x : Int) (j : Nat) :
    lebDoneAt x (j + 1) ↔ lebDoneAt (x / 128) j := by
  simp only [lebDoneAt]
  rw [← resid_succ]

/-- C7: put_leb128_i64 termination.  Every i64 (indeed every integer)
input yields at least one byte; every group before the last carries
the continuation bit and is emitted while the termination state is not
yet reached; the final group has a clear continuation bit and is
emitted exactly at the first group where the remaining value is 0 with
top payload bit 0, or -1 with top payload bit 1. -/
theorem c7_put_leb128_i64_termination (x : Int) :
    0 < (put_leb128_i64 x).length ∧
    (∀ j, j + 1 < (put_leb128_i64 x).length →
      CONTINUATION_BIT ≤ (put_leb128_i64 x).getD j 0 ∧ ¬ lebDoneAt x j) ∧
    ((put_leb128_i64 x).getD ((put_leb128_i64 x).length - 1) 0 < CONTINUATION_BIT ∧
      lebDoneAt x ((put_leb128_i64 x).length - 1)) := by
  induction x using put_leb128_i64.induct with
  | case1 x h =>
    have hput : put_leb128_i64 x = [(x % 256).toNat % 128] := by
      rw [put_leb128_i64]; rw [dif_pos h]
    rw [hput]
    refine ⟨by simp, ?_, ?_, ?_⟩
    · intro j hj
      simp at hj
    · simp only [List.length_cons, List.length_nil, Nat.sub_self, List.getD_cons_zero,
        CONTINUATION_BIT]
      omega
    · simp only [List.length_cons, List.length_nil, Nat.sub_self]
      exact (done_iff_lebDoneAt x).mp h
  | case2 x h ih =>
    rw [int_div64_div2] at ih
    have hput : put_leb128_i64 x =
        ((x % 256).toNat % 128 + 128) :: put_leb128_i64 (x / 128) := by
      rw [put_leb128_i64]; rw [dif_neg h, int_div64_div2]
    obtain ⟨hpos, hmid, hlast1, hlast2⟩ := ih
    have hnd0 : ¬ lebDoneAt x 0 := fun hd => h ((done_iff_lebDoneAt x).mpr hd)
    rw [hput]
    simp only [List.length_cons]
    refine ⟨by omega, ?_, ?_, ?_⟩
    · intro j hj
      cases j with
      | zero =>
        simp only [List.getD_cons_zero, CONTINUATION_BIT]
        exact ⟨by omega, hnd0⟩
      | succ j =>
        simp only [List.getD_cons_succ]
        have := hmid j (by omega)
        exact ⟨this.1, fun hd => this.2 ((lebDoneAt_succ x j).mp hd)⟩
    · have hlen := put_leb128_i64_length_pos (x / 128)
      rw [show (put_leb128_i64 (x / 128)).length + 1 - 1 =
        ((put_leb128_i64 (x / 128)).length - 1) + 1 by omega]
      simp only [List.getD_cons_succ]
      exact hlast1
    · have hlen := put_leb128_i64_length_pos (x / 128)
      rw [show (put_leb128_i64 (x / 128)).length + 1 - 1 =
        ((put_leb128_i64 (x / 128)).length - 1) + 1 by omega]
      exact (lebDoneAt_succ x _).mpr hlast2

/-- C7 witness at x = -129, whose encoding is 0xFF 0x7E. -/
theorem c7_put_leb128_i64_termination_witness :
    0 < (put_leb128_i64 (-129)).length ∧
    (CONTINUATION_BIT ≤ (put_leb128_i64 (-129)).getD 0 0 ∧ ¬ lebDoneAt (-129) 0) ∧
    ((put_leb128_i64 (-129)).getD ((put_leb128_i64 (-129)).length - 1) 0 <
        CONTINUATION_BIT ∧
      lebDoneAt (-129) ((put_leb128_i64 (-129)).length - 1)) :=
  ⟨(c7_put_leb128_i64_termination (-129)).1,
    (c7_put_leb128_i64_termination (-129)).2.1 0 (by simp [put_leb128_i64]),
    (c7_put_leb128_i64_termination (-129)).2.2⟩
